import Mathlib

/-!
Shallow embedding of the `x-queryjs` library (`src/queryable/queryable.ts`),
a LINQ-style query layer over in-memory arrays, together with proofs of the
specification's operator contracts.

Modelling conventions:
* A JS array is a Lean `List`; the `Queryable<T>` class is a structure holding
  its private `collection` field.
* ECMAScript array primitives used by the source (`map`, `filter`, `slice`,
  `reduce`, `find`, `reverse`, spread copy, stable `sort`) are embedded by
  Lean functions with the semantics the ECMAScript standard gives them;
  `Array.prototype.sort` is required to be stable since ES2019 and is
  embedded as a stable merge sort over the comparator.
* For the element-access operators (`first`, `last`, `firstOrDefault`,
  `lastOrDefault`) the JS runtime value `undefined` is observable, so there
  the element type is `Option α` with `none` playing the role of `undefined`
  (a JS value of static type `T | undefined` collapses both layers into one).
* JS numbers are idealized as exact rationals extended with `NaN` and the
  two infinities; rounding plays no role in any property proved here.
-/

namespace XQuery

/-- Embedding of `class Queryable<T>`: a wrapper holding the private field
`collection: T[]`. -/
structure Queryable (α : Type) where
  collection : List α

variable {α β : Type} {κ : Type}

/-- Embedding of `toArray()`: `return this.collection;`. -/
def toArray (q : Queryable α) : List α :=
  q.collection

/-- Embedding of `select(selector)`: `new Queryable(this.collection.map(selector))`. -/
def select (f : α → β) (q : Queryable α) : Queryable β :=
  ⟨q.collection.map f⟩

/-- Embedding of `where(predicate)` (spelled `where_` because `where` is a
Lean keyword): `new Queryable(this.collection.filter(predicate))`. -/
def where_ (p : α → Bool) (q : Queryable α) : Queryable α :=
  ⟨q.collection.filter p⟩

/-- Embedding of ECMAScript `Array.prototype.slice(start, end)`: a negative
index counts from the end of the array (`length + index`), and both indices
are then clamped to `[0, length]`; the result is the elements at positions
`start ≤ i < end` after that conversion. -/
def jsSlice (l : List α) (start endIdx : Int) : List α :=
  let len : Int := l.length
  let s : Int := if start < 0 then max (len + start) 0 else min start len
  let e : Int := if endIdx < 0 then max (len + endIdx) 0 else min endIdx len
  (l.take e.toNat).drop s.toNat

/-- Embedding of `take(count)`: `new Queryable(this.collection.slice(0, count))`. -/
def take (count : Int) (q : Queryable α) : Queryable α :=
  ⟨jsSlice q.collection 0 count⟩

/-- Embedding of `skip(count)`: `new Queryable(this.collection.slice(count))`;
the omitted second argument of `slice` defaults to the array length. -/
def skip (count : Int) (q : Queryable α) : Queryable α :=
  ⟨jsSlice q.collection count (q.collection.length : Int)⟩

/-- C9: `where` with the constantly-true predicate and `select` with the
identity selector are no-ops: contents, order and length are unchanged. -/
theorem where_true_select_id_noop (α : Type) (l : List α) :
    (where_ (fun _ => true) ⟨l⟩).collection = l ∧
    (select (fun x => x) ⟨l⟩).collection = l := by
  constructor
  · simp [where_]
  · simp [select]

/-- C1, counterexample: a negative count is not clamped to `0`.  On
`[1,2,3]`, `take(-1)` returns `[1,2]` (not the empty wrapper the claim
demands) and `skip(-1)` returns `[3]` (not all elements unchanged), because
ECMAScript `slice` interprets a negative index as `length + index`. -/
theorem take_skip_negative_counterexample :
    (take (-1) ⟨[1, 2, 3]⟩).collection = [1, 2] ∧
    (take (-1) (⟨[1, 2, 3]⟩ : Queryable ℕ)).collection ≠ [] ∧
    (skip (-1) ⟨[1, 2, 3]⟩).collection = [3] ∧
    (skip (-1) (⟨[1, 2, 3]⟩ : Queryable ℕ)).collection ≠ [1, 2, 3] := by
  refine ⟨?_, ?_, ?_, ?_⟩ <;> decide

/-- C1, amended: counts at or above the length are clamped to the length
(`take` returns everything, `skip` returns the empty wrapper) and
non-negative counts are clamped to `[0, length]`; but a negative count `c`
is interpreted as `length + c` (clamped below to `0`), so `take c` drops the
last `min (-c) length` elements and `skip c` keeps exactly those.  No count
raises an error: both operators are total. -/
theorem take_skip_clamp (α : Type) (l : List α) (c : Int) :
    ((l.length : Int) ≤ c →
      (take c ⟨l⟩).collection = l ∧ (skip c ⟨l⟩).collection = []) ∧
    (0 ≤ c →
      (take c ⟨l⟩).collection = l.take c.toNat ∧
      (skip c ⟨l⟩).collection = l.drop c.toNat) ∧
    (c < 0 →
      (take c ⟨l⟩).collection = l.take (l.length - (-c).toNat) ∧
      (skip c ⟨l⟩).collection = l.drop (l.length - (-c).toNat)) := by
  have hlen : (0 : Int) ≤ (l.length : Int) := Int.ofNat_nonneg _
  refine ⟨fun hge => ?_, fun hnn => ?_, fun hneg => ?_⟩
  · have hc0 : (0 : Int) ≤ c := le_trans hlen hge
    constructor
    · show (jsSlice l 0 c) = l
      simp only [jsSlice]
      rw [if_neg (by omega), if_neg (by omega)]
      have h1 : (min (0 : Int) (l.length : Int)).toNat = 0 := by omega
      have h2 : (min c (l.length : Int)).toNat = l.length := by omega
      rw [h1, h2, List.take_length, List.drop_zero]
    · show (jsSlice l c (l.length : Int)) = []
      simp only [jsSlice]
      rw [if_neg (by omega), if_neg (by omega)]
      have h1 : (min c (l.length : Int)).toNat = l.length := by omega
      have h2 : (min (l.length : Int) (l.length : Int)).toNat = l.length := by omega
      rw [h1, h2, List.take_length, List.drop_eq_nil_of_le le_rfl]
  · constructor
    · show (jsSlice l 0 c) = l.take c.toNat
      simp only [jsSlice]
      rw [if_neg (by omega), if_neg (by omega)]
      have h1 : (min (0 : Int) (l.length : Int)).toNat = 0 := by omega
      rw [h1, List.drop_zero]
      rcases le_total c (l.length : Int) with h | h
      · have : (min c (l.length : Int)).toNat = c.toNat := by omega
        rw [this]
      · have h2 : (min c (l.length : Int)).toNat = l.length := by omega
        rw [h2, List.take_length, List.take_of_length_le (by omega)]
    · show (jsSlice l c (l.length : Int)) = l.drop c.toNat
      simp only [jsSlice]
      rw [if_neg (by omega), if_neg (by omega)]
      have h2 : (min (l.length : Int) (l.length : Int)).toNat = l.length := by omega
      rw [h2, List.take_length]
      rcases le_total c (l.length : Int) with h | h
      · have : (min c (l.length : Int)).toNat = c.toNat := by omega
        rw [this]
      · have h1 : (min c (l.length : Int)).toNat = l.length := by omega
        rw [h1, List.drop_eq_nil_of_le le_rfl,
          List.drop_eq_nil_of_le (by omega)]
  · constructor
    · show (jsSlice l 0 c) = l.take (l.length - (-c).toNat)
      simp only [jsSlice]
      rw [if_neg (by omega), if_pos hneg]
      have h1 : (min (0 : Int) (l.length : Int)).toNat = 0 := by omega
      have h2 : (max ((l.length : Int) + c) 0).toNat = l.length - (-c).toNat := by
        omega
      rw [h1, h2, List.drop_zero]
    · show (jsSlice l c (l.length : Int)) = l.drop (l.length - (-c).toNat)
      simp only [jsSlice]
      rw [if_pos hneg, if_neg (by omega)]
      have h1 : (max ((l.length : Int) + c) 0).toNat = l.length - (-c).toNat := by
        omega
      have h2 : (min (l.length : Int) (l.length : Int)).toNat = l.length := by omega
      rw [h1, h2, List.take_length]

/-- C1, witness: the amended theorem instantiated at `[1,2,3]` with the
oversized count `5` and the negative count `-1`. -/
theorem take_skip_clamp_witness :
    (take 5 (⟨[1, 2, 3]⟩ : Queryable ℕ)).collection = [1, 2, 3] ∧
    (skip 5 (⟨[1, 2, 3]⟩ : Queryable ℕ)).collection = [] ∧
    (take (-1) (⟨[1, 2, 3]⟩ : Queryable ℕ)).collection = [1, 2] ∧
    (skip (-1) (⟨[1, 2, 3]⟩ : Queryable ℕ)).collection = [3] :=
  ⟨((take_skip_clamp ℕ [1, 2, 3] 5).1 (by decide)).1,
   ((take_skip_clamp ℕ [1, 2, 3] 5).1 (by decide)).2,
   ((take_skip_clamp ℕ [1, 2, 3] (-1)).2.2 (by decide)).1,
   ((take_skip_clamp ℕ [1, 2, 3] (-1)).2.2 (by decide)).2⟩

/-- Comparator built by `orderBy`:
`keyA < keyB ? -1 : keyA > keyB ? 1 : 0` on the extracted keys. -/
def ascComparator [LinearOrder κ] (k : α → κ) (a b : α) : Int :=
  if k a < k b then -1 else if k b < k a then 1 else 0

/-- Comparator built by `orderByDescending`:
`keyA > keyB ? -1 : keyA < keyB ? 1 : 0` on the extracted keys. -/
def descComparator [LinearOrder κ] (k : α → κ) (a b : α) : Int :=
  if k b < k a then -1 else if k a < k b then 1 else 0

/-- Embedding of ECMAScript `Array.prototype.sort(comparator)` for a
consistent comparator: a stable sort that puts `a` no later than `b` when
`comparator a b ≤ 0` (the standard requires sort to be stable). -/
def jsSort (c : α → α → Int) (l : List α) : List α :=
  l.mergeSort (fun a b => decide (c a b ≤ 0))

/-- Embedding of `orderBy(keySelector)`:
`new Queryable([...this.collection].sort((a, b) => keyA < keyB ? -1 : keyA > keyB ? 1 : 0))`;
the spread copies the backing array and the copy is sorted. -/
def orderBy [LinearOrder κ] (k : α → κ) (q : Queryable α) : Queryable α :=
  ⟨jsSort (ascComparator k) q.collection⟩

/-- Embedding of `orderByDescending(keySelector)`:
`new Queryable([...this.collection].sort((a, b) => keyA > keyB ? -1 : keyA < keyB ? 1 : 0))`. -/
def orderByDescending [LinearOrder κ] (k : α → κ) (q : Queryable α) : Queryable α :=
  ⟨jsSort (descComparator k) q.collection⟩

lemma ascComparator_nonpos_iff [LinearOrder κ] (k : α → κ) (a b : α) :
    ascComparator k a b ≤ 0 ↔ k a ≤ k b := by
  rcases lt_trichotomy (k a) (k b) with h | h | h <;>
    simp [ascComparator, h, le_of_lt, not_lt_of_lt, le_of_eq, not_le_of_lt]

lemma descComparator_nonpos_iff [LinearOrder κ] (k : α → κ) (a b : α) :
    descComparator k a b ≤ 0 ↔ k b ≤ k a := by
  rcases lt_trichotomy (k a) (k b) with h | h | h <;>
    simp [descComparator, h, le_of_lt, not_lt_of_lt, le_of_eq, not_le_of_lt]

/-- A list all of whose elements are pairwise related by a reflexive-on-them
relation is `Pairwise` for it. -/
lemma pairwise_of_forall_mem {R : α → α → Prop} {l : List α}
    (h : ∀ a ∈ l, ∀ b ∈ l, R a b) : l.Pairwise R := by
  induction l with
  | nil => exact List.Pairwise.nil
  | cons x xs ih =>
    refine List.Pairwise.cons (fun b hb => h x (by simp) b (by simp [hb])) ?_
    exact ih fun a ha b hb => h a (by simp [ha]) b (by simp [hb])

/-- Stability of `jsSort` for a comparator whose nonpositivity agrees with a
total preorder on keys: the elements with any fixed key come out in exactly
their original relative order. -/
lemma jsSort_stable_filter [DecidableEq κ] [LinearOrder κ] (k : α → κ)
    (c : α → α → Int) (r : κ → κ → Prop) [DecidableRel r]
    (hiff : ∀ a b, c a b ≤ 0 ↔ r (k a) (k b))
    (htrans : ∀ x y z : κ, r x y → r y z → r x z)
    (htotal : ∀ x y : κ, r x y ∨ r y x)
    (hrefl : ∀ x : κ, r x x)
    (l : List α) (key : κ) :
    (jsSort c l).filter (fun x => decide (k x = key)) =
      l.filter (fun x => decide (k x = key)) := by
  set le : α → α → Bool := fun a b => decide (c a b ≤ 0) with hle
  have hle_iff : ∀ a b, le a b = true ↔ r (k a) (k b) := by
    intro a b; simp [hle, hiff]
  have htransB : ∀ a b d : α, le a b = true → le b d = true → le a d = true := by
    intro a b d h1 h2
    rw [hle_iff] at h1 h2 ⊢
    exact htrans _ _ _ h1 h2
  have htotalB : ∀ a b : α, (le a b || le b a) = true := by
    intro a b
    rcases htotal (k a) (k b) with h | h
    · simp [Bool.or_eq_true, hle_iff, h]
    · simp [Bool.or_eq_true, hle_iff, h]
  set P : α → Bool := fun x => decide (k x = key) with hP
  have hmemP : ∀ x, P x = true ↔ k x = key := by intro x; simp [hP]
  -- the same-key elements of `l` form a pairwise-`le` sublist of `l`
  have hsub : (l.filter P).Sublist l := List.filter_sublist l
  have hpw : (l.filter P).Pairwise (fun a b => le a b = true) := by
    refine pairwise_of_forall_mem fun a ha b hb => ?_
    have hka : k a = key := (hmemP a).1 (List.of_mem_filter ha)
    have hkb : k b = key := (hmemP b).1 (List.of_mem_filter hb)
    rw [hle_iff, hka, hkb]
    exact hrefl key
  -- stability of mergeSort: that sublist survives into the sorted list
  have hsub' : (l.filter P).Sublist (jsSort c l) :=
    List.sublist_mergeSort htransB htotalB hpw hsub
  -- it is a sublist of the sorted list's same-key elements, of equal length
  have hsub'' : (l.filter P).Sublist ((jsSort c l).filter P) := by
    have := List.Sublist.filter P hsub'
    rwa [List.filter_filter, show (fun a => P a && P a) = P by
      funext a; cases P a <;> rfl] at this
  have hperm : ((jsSort c l).filter P).Perm (l.filter P) :=
    List.Perm.filter P (List.mergeSort_perm l le)
  exact ((hsub''.eq_of_length hperm.length_eq.symm)).symm

/-- Auxiliary: the three `orderBy` properties, shared by the claim theorems. -/
lemma orderBy_spec_aux {α κ : Type} [LinearOrder κ] [DecidableEq κ]
    (k : α → κ) (l : List α) :
    ((orderBy k ⟨l⟩).collection).Perm l ∧
    ((orderBy k ⟨l⟩).collection).Pairwise (fun a b => k a ≤ k b) ∧
    (∀ key : κ, (orderBy k ⟨l⟩).collection.filter (fun x => decide (k x = key)) =
      l.filter (fun x => decide (k x = key))) := by
  refine ⟨List.mergeSort_perm l _, ?_, ?_⟩
  · have hs := @List.sorted_mergeSort _
      (fun a b => decide (ascComparator k a b ≤ 0))
      (fun a b d h1 h2 => by
        simp only [decide_eq_true_eq, ascComparator_nonpos_iff] at h1 h2 ⊢
        exact le_trans h1 h2)
      (fun a b => by
        simp only [Bool.or_eq_true, decide_eq_true_eq, ascComparator_nonpos_iff]
        exact le_total (k a) (k b)) l
    exact hs.imp (by
      intro a b h
      simpa [ascComparator_nonpos_iff] using h)
  · intro key
    exact jsSort_stable_filter k (ascComparator k) (fun x y => x ≤ y)
      (fun a b => ascComparator_nonpos_iff k a b)
      (fun _ _ _ => le_trans) (fun x y => le_total x y) (fun x => le_refl x)
      l key

/-- Auxiliary: the three `orderByDescending` properties, shared below. -/
lemma orderByDescending_spec_aux {α κ : Type} [LinearOrder κ] [DecidableEq κ]
    (k : α → κ) (l : List α) :
    ((orderByDescending k ⟨l⟩).collection).Perm l ∧
    ((orderByDescending k ⟨l⟩).collection).Pairwise (fun a b => k b ≤ k a) ∧
    (∀ key : κ,
      (orderByDescending k ⟨l⟩).collection.filter (fun x => decide (k x = key)) =
        l.filter (fun x => decide (k x = key))) := by
  refine ⟨List.mergeSort_perm l _, ?_, ?_⟩
  · have hs := @List.sorted_mergeSort _
      (fun a b => decide (descComparator k a b ≤ 0))
      (fun a b d h1 h2 => by
        simp only [decide_eq_true_eq, descComparator_nonpos_iff] at h1 h2 ⊢
        exact le_trans h2 h1)
      (fun a b => by
        simp only [Bool.or_eq_true, decide_eq_true_eq, descComparator_nonpos_iff]
        exact le_total (k b) (k a)) l
    exact hs.imp (by
      intro a b h
      simpa [descComparator_nonpos_iff] using h)
  · intro key
    exact jsSort_stable_filter k (descComparator k) (fun x y => y ≤ x)
      (fun a b => descComparator_nonpos_iff k a b)
      (fun _ _ _ h1 h2 => le_trans h2 h1) (fun x y => le_total y x)
      (fun x => le_refl x) l key

/-- Auxiliary: on a list all of whose keys equal `key`, a sort result that is
a permutation of the list and filter-stable for `key` is the list itself. -/
lemma sort_result_eq_of_const_key {α κ : Type} [DecidableEq κ]
    (k : α → κ) (key : κ) (l r : List α)
    (hperm : r.Perm l)
    (hstab : r.filter (fun x => decide (k x = key)) =
      l.filter (fun x => decide (k x = key)))
    (hkey : ∀ x ∈ l, k x = key) : r = l := by
  have hrkey : ∀ x ∈ r, k x = key := fun x hx => hkey x (hperm.mem_iff.1 hx)
  have h1 : r.filter (fun x => decide (k x = key)) = r :=
    List.filter_eq_self.2 fun a ha => by simp [hrkey a ha]
  have h2 : l.filter (fun x => decide (k x = key)) = l :=
    List.filter_eq_self.2 fun a ha => by simp [hkey a ha]
  rw [h1, h2] at hstab
  exact hstab

/-- C4: `orderBy` returns a permutation of the input, sorted ascending by
the extracted key, and it is stable: the elements carrying any fixed key
appear in exactly their original relative order. -/
theorem orderBy_sorted_stable_perm (α κ : Type) [LinearOrder κ] [DecidableEq κ]
    (k : α → κ) (l : List α) :
    ((orderBy k ⟨l⟩).collection).Perm l ∧
    ((orderBy k ⟨l⟩).collection).Pairwise (fun a b => k a ≤ k b) ∧
    (∀ key : κ, (orderBy k ⟨l⟩).collection.filter (fun x => decide (k x = key)) =
      l.filter (fun x => decide (k x = key))) :=
  orderBy_spec_aux k l

/-- C3: `orderByDescending` returns a permutation of the input, sorted
descending by the extracted key, and it is stable: elements with equal keys
keep their original relative order.  In particular it is not the reverse of
the ascending `orderBy` result: on the tied-key input `[(1,0), (1,1)]`
(key = first component) the stable descending sort keeps `[(1,0), (1,1)]`
while the reversed ascending order would be `[(1,1), (1,0)]`. -/
theorem orderByDescending_sorted_stable_perm :
    (∀ (α κ : Type) [LinearOrder κ] [DecidableEq κ] (k : α → κ) (l : List α),
      ((orderByDescending k ⟨l⟩).collection).Perm l ∧
      ((orderByDescending k ⟨l⟩).collection).Pairwise (fun a b => k b ≤ k a) ∧
      (∀ key : κ,
        (orderByDescending k ⟨l⟩).collection.filter (fun x => decide (k x = key)) =
          l.filter (fun x => decide (k x = key)))) ∧
    (orderByDescending (fun p => p.1) ⟨[((1 : ℕ), (0 : ℕ)), (1, 1)]⟩).collection ≠
      ((orderBy (fun p => p.1) ⟨[((1 : ℕ), (0 : ℕ)), (1, 1)]⟩).collection).reverse := by
  refine ⟨fun α κ _ _ k l => orderByDescending_spec_aux k l, ?_⟩
  have hkey : ∀ x ∈ [((1 : ℕ), (0 : ℕ)), (1, 1)], (fun p : ℕ × ℕ => p.1) x = 1 := by
    decide
  obtain ⟨hdp, -, hds⟩ :=
    orderByDescending_spec_aux (fun p : ℕ × ℕ => p.1) [((1 : ℕ), (0 : ℕ)), (1, 1)]
  obtain ⟨hap, -, has⟩ :=
    orderBy_spec_aux (fun p : ℕ × ℕ => p.1) [((1 : ℕ), (0 : ℕ)), (1, 1)]
  rw [sort_result_eq_of_const_key _ 1 _ _ hdp (hds 1) hkey,
    sort_result_eq_of_const_key _ 1 _ _ hap (has 1) hkey]
  decide

/-- One step of the `groupBy` reducer body: `groups[key]` is created as `[]`
when absent and the item is pushed onto it.  A JS object keyed by strings is
insertion-ordered, so the record is embedded as an association list in which
a new key is appended at the end and an existing key's first entry grows. -/
def insertGroup [DecidableEq κ] (key : κ) (x : α) :
    List (κ × List α) → List (κ × List α)
  | [] => [(key, [x])]
  | (k, g) :: rest =>
    if k = key then (k, g ++ [x]) :: rest else (k, g) :: insertGroup key x rest

/-- Embedding of `groupBy(keySelector)`:
`this.collection.reduce((groups, item) => { ...push item into groups[keySelector(item)]... }, {})`. -/
def groupBy [DecidableEq κ] (k : α → κ) (q : Queryable α) : List (κ × List α) :=
  q.collection.foldl (fun groups item => insertGroup (k item) item groups) []

/-- Embedding of the JS property read `groups[key]` on the association-list
model: the first entry with the key, if any. -/
def findGroup [DecidableEq κ] (key : κ) : List (κ × List α) → Option (List α)
  | [] => none
  | (k, g) :: rest => if k = key then some g else findGroup key rest

lemma findGroup_insertGroup_self [DecidableEq κ] (key : κ) (x : α)
    (gs : List (κ × List α)) :
    findGroup key (insertGroup key x gs) =
      some (((findGroup key gs).getD []) ++ [x]) := by
  induction gs with
  | nil => simp [insertGroup, findGroup]
  | cons hd rest ih =>
    obtain ⟨k, g⟩ := hd
    by_cases hk : k = key
    · subst hk
      simp [insertGroup, findGroup]
    · simp [insertGroup, findGroup, hk, ih]

lemma findGroup_insertGroup_ne [DecidableEq κ] {key key' : κ} (hne : key ≠ key')
    (x : α) (gs : List (κ × List α)) :
    findGroup key (insertGroup key' x gs) = findGroup key gs := by
  have hne' : ¬ key' = key := fun h => hne h.symm
  induction gs with
  | nil => simp [insertGroup, findGroup, hne']
  | cons hd rest ih =>
    obtain ⟨k, g⟩ := hd
    by_cases hk : k = key'
    · subst hk
      simp [insertGroup, findGroup, hne']
    · simp [insertGroup, findGroup, hk, ih]

lemma keys_insertGroup_subset [DecidableEq κ] (key : κ) (x : α)
    (gs : List (κ × List α)) :
    (insertGroup key x gs).map Prod.fst ⊆ key :: gs.map Prod.fst := by
  induction gs with
  | nil =>
    simp only [insertGroup, List.map_cons, List.map_nil]
    exact List.Subset.refl _
  | cons hd rest ih =>
    obtain ⟨k, g⟩ := hd
    by_cases hk : k = key
    · have heq : insertGroup key x ((k, g) :: rest) = (k, g ++ [x]) :: rest := by
        simp [insertGroup, hk]
      rw [heq]
      intro y hy
      exact List.mem_cons_of_mem _ hy
    · have heq : insertGroup key x ((k, g) :: rest) =
          (k, g) :: insertGroup key x rest := by
        simp [insertGroup, hk]
      rw [heq]
      intro y hy
      rcases List.mem_cons.1 hy with h | h
      · exact List.mem_cons_of_mem _ (h ▸ List.mem_cons_self _ _)
      · rcases List.mem_cons.1 (ih h) with h2 | h2
        · exact h2 ▸ List.mem_cons_self _ _
        · exact List.mem_cons_of_mem _ (List.mem_cons_of_mem _ h2)

lemma keys_insertGroup_nodup [DecidableEq κ] (key : κ) (x : α)
    {gs : List (κ × List α)} (h : (gs.map Prod.fst).Nodup) :
    ((insertGroup key x gs).map Prod.fst).Nodup := by
  induction gs with
  | nil => simp [insertGroup]
  | cons hd rest ih =>
    obtain ⟨k, g⟩ := hd
    simp only [List.map_cons, List.nodup_cons] at h
    by_cases hk : k = key
    · have heq : insertGroup key x ((k, g) :: rest) = (k, g ++ [x]) :: rest := by
        simp [insertGroup, hk]
      rw [heq]
      simp only [List.map_cons, List.nodup_cons]
      exact h
    · have heq : insertGroup key x ((k, g) :: rest) =
          (k, g) :: insertGroup key x rest := by
        simp [insertGroup, hk]
      rw [heq]
      simp only [List.map_cons, List.nodup_cons]
      refine ⟨fun hmem => ?_, ih h.2⟩
      rcases List.mem_cons.1 (keys_insertGroup_subset key x rest hmem) with h' | h'
      · exact hk h'
      · exact h.1 h'

lemma flatten_insertGroup [DecidableEq κ] (key : κ) (x : α)
    (gs : List (κ × List α)) :
    ((insertGroup key x gs).map Prod.snd).flatten.Perm
      (((gs.map Prod.snd).flatten) ++ [x]) := by
  induction gs with
  | nil => simp [insertGroup]
  | cons hd rest ih =>
    obtain ⟨k, g⟩ := hd
    by_cases hk : k = key
    · have heq : insertGroup key x ((k, g) :: rest) = (k, g ++ [x]) :: rest := by
        simp [insertGroup, hk]
      rw [heq]
      simp only [List.map_cons, List.flatten_cons, List.append_assoc]
      exact List.Perm.append_left g List.perm_append_comm
    · have heq : insertGroup key x ((k, g) :: rest) =
          (k, g) :: insertGroup key x rest := by
        simp [insertGroup, hk]
      rw [heq]
      simp only [List.map_cons, List.flatten_cons, List.append_assoc]
      exact List.Perm.append_left g ih

lemma groupBy_foldl_flatten_perm [DecidableEq κ] (k : α → κ) (l : List α)
    (gs : List (κ × List α)) :
    (((l.foldl (fun groups item => insertGroup (k item) item groups) gs).map
      Prod.snd).flatten).Perm (((gs.map Prod.snd).flatten) ++ l) := by
  induction l generalizing gs with
  | nil => simp
  | cons x xs ih =>
    simp only [List.foldl_cons]
    have hstep : ((((gs.map Prod.snd).flatten) ++ [x]) ++ xs) =
        ((gs.map Prod.snd).flatten) ++ (x :: xs) := by
      rw [List.append_assoc]; rfl
    rw [← hstep]
    exact (ih _).trans
      (List.Perm.append_right xs (flatten_insertGroup (k x) x gs))

lemma groupBy_foldl_nodup [DecidableEq κ] (k : α → κ) (l : List α)
    (gs : List (κ × List α)) (h : (gs.map Prod.fst).Nodup) :
    (((l.foldl (fun groups item => insertGroup (k item) item groups) gs).map
      Prod.fst)).Nodup := by
  induction l generalizing gs with
  | nil => simpa
  | cons x xs ih =>
    simp only [List.foldl_cons]
    exact ih _ (keys_insertGroup_nodup (k x) x h)

lemma groupBy_foldl_findGroup [DecidableEq κ] (k : α → κ) (l : List α)
    (gs : List (κ × List α)) (key : κ) :
    findGroup key (l.foldl (fun groups item => insertGroup (k item) item groups) gs) =
      match findGroup key gs, l.filter (fun x => decide (k x = key)) with
      | some g, f => some (g ++ f)
      | none, [] => none
      | none, f => some f := by
  induction l generalizing gs with
  | nil =>
    simp only [List.foldl_nil, List.filter_nil]
    cases hg : findGroup key gs <;> simp
  | cons x xs ih =>
    simp only [List.foldl_cons]
    by_cases hk : k x = key
    · rw [ih (insertGroup (k x) x gs), hk, findGroup_insertGroup_self]
      have hfc : List.filter (fun y => decide (k y = key)) (x :: xs) =
          x :: List.filter (fun y => decide (k y = key)) xs := by
        simp [List.filter_cons, hk]
      rw [hfc]
      cases hg : findGroup key gs <;> simp
    · rw [ih (insertGroup (k x) x gs),
        findGroup_insertGroup_ne (fun h => hk h.symm)]
      have hfc : List.filter (fun y => decide (k y = key)) (x :: xs) =
          List.filter (fun y => decide (k y = key)) xs := by
        simp [List.filter_cons, hk]
      rw [hfc]

/-- C5: `groupBy` partitions the collection: the concatenation of all groups
is a permutation of the source; looking up any key yields exactly the source
elements with that key, in their original source order (so every element
lies in precisely the group of its key); and no key owns two groups. -/
theorem groupBy_partition (α κ : Type) [DecidableEq κ] (k : α → κ) (l : List α) :
    (((groupBy k ⟨l⟩).map Prod.snd).flatten).Perm l ∧
    (∀ key : κ,
      (findGroup key (groupBy k ⟨l⟩)).getD [] =
        l.filter (fun x => decide (k x = key)) ∧
      (findGroup key (groupBy k ⟨l⟩) = none ↔
        l.filter (fun x => decide (k x = key)) = [])) ∧
    ((groupBy k ⟨l⟩).map Prod.fst).Nodup := by
  refine ⟨?_, ?_, ?_⟩
  · simpa using groupBy_foldl_flatten_perm k l []
  · intro key
    have h := groupBy_foldl_findGroup k l [] key
    simp only [findGroup] at h
    rw [show (groupBy k ⟨l⟩ : List (κ × List α)) =
      l.foldl (fun groups item => insertGroup (k item) item groups) [] from rfl]
    rw [h]
    cases hf : l.filter (fun x => decide (k x = key)) <;> simp
  · exact groupBy_foldl_nodup k l [] (by simp)

/-- One step of the `distinct` loop body on the state
`(uniqueKeys, distinctItems)`: the JS `Set` of seen keys is modeled as the
list of its members (only membership is ever consulted) and `push` appends. -/
def distinctStep [DecidableEq κ] (k : α → κ) (st : List κ × List α) (item : α) :
    List κ × List α :=
  if k item ∈ st.1 then st else (k item :: st.1, st.2 ++ [item])

/-- Embedding of `distinct(keySelector)`: a `forEach` over the collection
keeping each item whose key is not yet in `uniqueKeys`.  The optional
selector's "element itself as key" default is the instance `k = id`. -/
def distinct [DecidableEq κ] (k : α → κ) (q : Queryable α) : Queryable α :=
  ⟨(q.collection.foldl (distinctStep k) ([], [])).2⟩

lemma distinct_foldl_acc [DecidableEq κ] (k : α → κ) (l : List α)
    (seen : List κ) (acc : List α) :
    (l.foldl (distinctStep k) (seen, acc)).2 =
      acc ++ (l.foldl (distinctStep k) (seen, [])).2 := by
  induction l generalizing seen acc with
  | nil => simp
  | cons x xs ih =>
    simp only [List.foldl_cons, distinctStep]
    by_cases hx : k x ∈ seen
    · simp only [if_pos hx]
      exact ih seen acc
    · simp only [if_neg hx, List.nil_append]
      rw [ih (k x :: seen) (acc ++ [x]), ih (k x :: seen) [x]]
      simp

lemma distinct_foldl_sublist [DecidableEq κ] (k : α → κ) (l : List α)
    (seen : List κ) :
    ((l.foldl (distinctStep k) (seen, [])).2).Sublist l := by
  induction l generalizing seen with
  | nil => simp
  | cons x xs ih =>
    simp only [List.foldl_cons, distinctStep]
    by_cases hx : k x ∈ seen
    · simp only [if_pos hx]
      exact (ih seen).trans (List.sublist_cons_self x xs)
    · simp only [if_neg hx, List.nil_append]
      rw [distinct_foldl_acc k xs (k x :: seen) [x]]
      exact List.Sublist.cons₂ x (ih (k x :: seen))

lemma distinct_foldl_first_occurrence [DecidableEq κ] (k : α → κ) (l : List α)
    (seen : List κ) :
    ∀ y ∈ (l.foldl (distinctStep k) (seen, [])).2,
      k y ∉ seen ∧ l.find? (fun z => decide (k z = k y)) = some y := by
  induction l generalizing seen with
  | nil => simp
  | cons x xs ih =>
    intro y hy
    simp only [List.foldl_cons, distinctStep] at hy
    by_cases hx : k x ∈ seen
    · rw [if_pos hx] at hy
      obtain ⟨hns, hfind⟩ := ih seen y hy
      have hne : ¬ (k x = k y) := fun h => hns (h ▸ hx)
      refine ⟨hns, ?_⟩
      rw [List.find?_cons_of_neg _ (by simp [hne]), hfind]
    · rw [if_neg hx] at hy
      simp only [List.nil_append] at hy
      rw [distinct_foldl_acc k xs (k x :: seen) [x]] at hy
      rcases List.mem_cons.1 (by simpa using hy) with hyx | hy'
      · subst hyx
        exact ⟨hx, by rw [List.find?_cons_of_pos _ (by simp)]⟩
      · obtain ⟨hns, hfind⟩ := ih (k x :: seen) y hy'
        have hne : ¬ (k x = k y) := fun h => hns (by simp [h])
        refine ⟨fun hs => hns (List.mem_cons_of_mem _ hs), ?_⟩
        rw [List.find?_cons_of_neg _ (by simp [hne]), hfind]

lemma distinct_foldl_keys_nodup [DecidableEq κ] (k : α → κ) (l : List α)
    (seen : List κ) :
    (((l.foldl (distinctStep k) (seen, [])).2).map k).Nodup := by
  induction l generalizing seen with
  | nil => simp
  | cons x xs ih =>
    simp only [List.foldl_cons, distinctStep]
    by_cases hx : k x ∈ seen
    · simp only [if_pos hx]
      exact ih seen
    · simp only [if_neg hx, List.nil_append]
      rw [distinct_foldl_acc k xs (k x :: seen) [x]]
      simp only [List.singleton_append, List.map_cons, List.nodup_cons]
      refine ⟨fun hmem => ?_, ih (k x :: seen)⟩
      obtain ⟨y, hy, hky⟩ := List.mem_map.1 hmem
      obtain ⟨hns, -⟩ := distinct_foldl_first_occurrence k xs (k x :: seen) y hy
      exact hns (by simp [hky])

lemma distinct_foldl_covers [DecidableEq κ] (k : α → κ) (l : List α)
    (seen : List κ) :
    ∀ x ∈ l, k x ∈ seen ∨
      ∃ y ∈ (l.foldl (distinctStep k) (seen, [])).2, k y = k x := by
  induction l generalizing seen with
  | nil => simp
  | cons z zs ih =>
    intro x hx
    simp only [List.foldl_cons, distinctStep]
    by_cases hz : k z ∈ seen
    · rw [if_pos hz]
      rcases List.mem_cons.1 hx with hxz | hx'
      · exact Or.inl (hxz ▸ hz)
      · exact ih seen x hx'
    · rw [if_neg hz]
      simp only [List.nil_append]
      rw [distinct_foldl_acc k zs (k z :: seen) [z]]
      rcases List.mem_cons.1 hx with hxz | hx'
      · subst hxz
        exact Or.inr ⟨x, by simp, rfl⟩
      · rcases ih (k z :: seen) x hx' with hmem | ⟨y, hy, hky⟩
        · rcases List.mem_cons.1 hmem with h | h
          · exact Or.inr ⟨z, by simp, h.symm⟩
          · exact Or.inl h
        · exact Or.inr ⟨y, by simp [hy], hky⟩

/-- C8: `distinct` keeps exactly the first occurrence of each distinct key,
in original order: the result is a subsequence of the source, its keys are
pairwise distinct, every source key is represented, and every kept element
is the first source element bearing its key.  On `[1,2,2,3,1]` with the
identity key the result is `[1,2,3]`. -/
theorem distinct_first_occurrences :
    (∀ (α κ : Type) [inst : DecidableEq κ] (k : α → κ) (l : List α),
      ((distinct k ⟨l⟩).collection).Sublist l ∧
      (((distinct k ⟨l⟩).collection).map k).Nodup ∧
      (∀ x ∈ l, ∃ y ∈ (distinct k ⟨l⟩).collection, k y = k x) ∧
      (∀ y ∈ (distinct k ⟨l⟩).collection,
        l.find? (fun z => decide (k z = k y)) = some y)) ∧
    (distinct (fun x => x) ⟨[1, 2, 2, 3, 1]⟩).collection = ([1, 2, 3] : List ℕ) := by
  constructor
  · intro α κ _ k l
    refine ⟨distinct_foldl_sublist k l [], distinct_foldl_keys_nodup k l [],
      fun x hx => ?_, fun y hy => (distinct_foldl_first_occurrence k l [] y hy).2⟩
    rcases distinct_foldl_covers k l [] x hx with h | h
    · exact absurd h (List.not_mem_nil _)
    · exact h
  · decide

/-- C8, witness: the universal part of the theorem applied to the concrete
collection `[5, 7, 5]` with the identity key and the element `5`. -/
theorem distinct_first_occurrences_witness :
    ∃ y ∈ (distinct (fun x => x) ⟨[5, 7, 5]⟩).collection, y = (5 : ℕ) :=
  (distinct_first_occurrences.1 ℕ ℕ (fun x => x) [5, 7, 5]).2.2.1
    5 (by decide)

/-- Idealized JS number: an exact rational, `NaN`, or an infinity.  Exact
arithmetic replaces float64 rounding (no property proved here depends on
rounding) and signed zero is not modeled. -/
inductive JSNum where
  | num : ℚ → JSNum
  | nan : JSNum
  | posInf : JSNum
  | negInf : JSNum
deriving DecidableEq

/-- Embedding of JS `+` on numbers. -/
def jsAdd : JSNum → JSNum → JSNum
  | JSNum.nan, _ => JSNum.nan
  | _, JSNum.nan => JSNum.nan
  | JSNum.posInf, JSNum.negInf => JSNum.nan
  | JSNum.negInf, JSNum.posInf => JSNum.nan
  | JSNum.posInf, _ => JSNum.posInf
  | _, JSNum.posInf => JSNum.posInf
  | JSNum.negInf, _ => JSNum.negInf
  | _, JSNum.negInf => JSNum.negInf
  | JSNum.num x, JSNum.num y => JSNum.num (x + y)

/-- Embedding of JS `/` on numbers: division by zero yields `NaN` for a zero
dividend and an infinity otherwise; `NaN` propagates. -/
def jsDiv : JSNum → JSNum → JSNum
  | JSNum.nan, _ => JSNum.nan
  | _, JSNum.nan => JSNum.nan
  | JSNum.posInf, JSNum.posInf => JSNum.nan
  | JSNum.posInf, JSNum.negInf => JSNum.nan
  | JSNum.negInf, JSNum.posInf => JSNum.nan
  | JSNum.negInf, JSNum.negInf => JSNum.nan
  | JSNum.posInf, JSNum.num y => if 0 ≤ y then JSNum.posInf else JSNum.negInf
  | JSNum.negInf, JSNum.num y => if 0 ≤ y then JSNum.negInf else JSNum.posInf
  | JSNum.num _, JSNum.posInf => JSNum.num 0
  | JSNum.num _, JSNum.negInf => JSNum.num 0
  | JSNum.num x, JSNum.num y =>
    if y = 0 then
      if x = 0 then JSNum.nan
      else if 0 < x then JSNum.posInf else JSNum.negInf
    else JSNum.num (x / y)

/-- Embedding of `sum(selector)`:
`this.collection.reduce((acc, item) => acc + selector(item), 0)`. -/
def sum (sel : α → JSNum) (q : Queryable α) : JSNum :=
  q.collection.foldl (fun acc item => jsAdd acc (sel item)) (JSNum.num 0)

/-- Embedding of `average(selector)`:
`const total = this.sum(selector); return total / this.collection.length;`. -/
def average (sel : α → JSNum) (q : Queryable α) : JSNum :=
  jsDiv (sum sel q) (JSNum.num (q.collection.length : ℚ))

/-- C6: `average` is exactly `sum` divided by the length, with no emptiness
guard; on the empty sequence it is the division `0 / 0`, which is `NaN` and
in particular not the numeric value `0`. -/
theorem average_unguarded_division :
    (∀ (α : Type) (sel : α → JSNum) (q : Queryable α),
      average sel q = jsDiv (sum sel q) (JSNum.num (q.collection.length : ℚ))) ∧
    (∀ (α : Type) (sel : α → JSNum),
      average sel (⟨[]⟩ : Queryable α) = JSNum.nan) ∧
    JSNum.nan ≠ JSNum.num 0 := by
  refine ⟨fun α sel q => rfl, fun α sel => ?_, by decide⟩
  simp [average, sum, jsDiv]

/-- Embedding of ECMAScript `Array.prototype.find(pred)` over a collection
whose JS elements may be `undefined` (modeled as `none`): the result is the
first matching element, or `undefined` when there is none — so a matching
`undefined` element is indistinguishable from absence. -/
def jsFind (p : Option α → Bool) (l : List (Option α)) : Option α :=
  (l.find? p).getD none

/-- Embedding of `first(predicate?)`: `this.collection.find(predicate)` when
a predicate is given, `this.collection[0]` otherwise (out-of-range indexing
yields `undefined`). -/
def first (p : Option (Option α → Bool)) (q : Queryable (Option α)) : Option α :=
  match p with
  | some pred => jsFind pred q.collection
  | none => q.collection.getD 0 none

/-- Embedding of `last(predicate?)`:
`[...this.collection].reverse().find(predicate)` when a predicate is given,
`this.collection[this.collection.length - 1]` otherwise. -/
def last (p : Option (Option α → Bool)) (q : Queryable (Option α)) : Option α :=
  match p with
  | some pred => jsFind pred q.collection.reverse
  | none => q.collection.getD (q.collection.length - 1) none

/-- Embedding of `firstOrDefault(predicate?, defaultValue)`: the same lookup
as `first`, then `item !== undefined ? item : defaultValue` (the null-ish
default is modeled as `none` as well; only its identity matters here). -/
def firstOrDefault (p : Option (Option α → Bool)) (defaultValue : Option α)
    (q : Queryable (Option α)) : Option α :=
  let item : Option α := match p with
    | some pred => jsFind pred q.collection
    | none => q.collection.getD 0 none
  match item with
  | some v => some v
  | none => defaultValue

/-- Embedding of `lastOrDefault(predicate?, defaultValue)`: the same lookup
as `last`, then `item !== undefined ? item : defaultValue`. -/
def lastOrDefault (p : Option (Option α → Bool)) (defaultValue : Option α)
    (q : Queryable (Option α)) : Option α :=
  let item : Option α := match p with
    | some pred => jsFind pred q.collection.reverse
    | none => q.collection.getD (q.collection.length - 1) none
  match item with
  | some v => some v
  | none => defaultValue

/-- C2, counterexample: the absence sentinel is `undefined`, which is NOT
distinct from every valid element value.  On the one-element sequence
`[undefined]` with the constantly-true predicate, an element matches, yet
`first` and `last` both return the sentinel `undefined` — observing the
sentinel does not imply that no element matched. -/
theorem first_last_sentinel_counterexample :
    first (some (fun _ => true)) ⟨[(none : Option ℕ)]⟩ = none ∧
    last (some (fun _ => true)) ⟨[(none : Option ℕ)]⟩ = none ∧
    (none : Option ℕ) ∈ [(none : Option ℕ)] ∧
    (fun (_ : Option ℕ) => true) (none : Option ℕ) = true := by
  refine ⟨rfl, rfl, by decide, rfl⟩

lemma getD_mem_of_lt {γ : Type} {l : List γ} {n : ℕ} (d : γ)
    (h : n < l.length) : l.getD n d ∈ l := by
  induction l generalizing n with
  | nil => simp at h
  | cons x xs ih =>
    cases n with
    | zero => exact List.mem_cons_self x xs
    | succ m =>
      exact List.mem_cons_of_mem x (ih (by simpa using Nat.lt_of_succ_lt_succ h))

/-- C2, amended: provided the sequence does not contain `undefined` as an
element, the sentinel `undefined` is distinct from every element value, and
`first`/`last` return it exactly when the sequence is empty (predicate-free
form) or no element satisfies the predicate; both are total functions, so
absence never throws.  (When `undefined` is itself an element the sentinel
collides with it, as the counterexample shows.) -/
theorem first_last_sentinel (α : Type) (p : Option α → Bool)
    (l : List (Option α)) (h : (none : Option α) ∉ l) :
    (first (some p) ⟨l⟩ = none ↔ ∀ x ∈ l, p x = false) ∧
    (last (some p) ⟨l⟩ = none ↔ ∀ x ∈ l, p x = false) ∧
    (first none ⟨l⟩ = none ↔ l = []) ∧
    (last none ⟨l⟩ = none ↔ l = []) := by
  have hfind : ∀ (m : List (Option α)), (none : Option α) ∉ m →
      (jsFind p m = none ↔ ∀ x ∈ m, p x = false) := by
    intro m hm
    constructor
    · intro h0 x hx
      cases hf : m.find? p with
      | none => simpa using List.find?_eq_none.1 hf x hx
      | some v =>
        have hv : v = none := by simpa [jsFind, hf] using h0
        exact absurd (hv ▸ List.mem_of_find?_eq_some hf) hm
    · intro h0
      have : m.find? p = none := List.find?_eq_none.2 fun x hx => by
        simp [h0 x hx]
      simp [jsFind, this]
  refine ⟨?_, ?_, ?_, ?_⟩
  · exact hfind l h
  · have := hfind l.reverse (fun hmem => h (List.mem_reverse.1 hmem))
    simpa [XQuery.last, List.mem_reverse] using this
  · cases l with
    | nil => simp [XQuery.first]
    | cons x xs =>
      have hx : x ∈ x :: xs := List.mem_cons_self x xs
      have hxne : x ≠ none := fun hxn => h (hxn ▸ hx)
      constructor
      · intro h0
        exact absurd (show x = none from h0) hxne
      · intro h0
        exact absurd h0 (List.cons_ne_nil x xs)
  · cases l with
    | nil => simp [XQuery.last]
    | cons x xs =>
      have hlt : (x :: xs).length - 1 < (x :: xs).length := by simp
      have hmem := getD_mem_of_lt none hlt
      have hne : (x :: xs).getD ((x :: xs).length - 1) none ≠ none :=
        fun hn => h (hn ▸ hmem)
      constructor
      · intro h0
        exact absurd h0 hne
      · intro h0
        exact absurd h0 (List.cons_ne_nil x xs)

/-- C2, witness: the amended theorem on the `undefined`-free sequence
`[1, 2]` with a predicate matched by no element. -/
theorem first_last_sentinel_witness :
    first (some (fun x => decide (x = some 5))) ⟨[some 1, some 2]⟩ = none :=
  (first_last_sentinel ℕ (fun x => decide (x = some 5)) [some 1, some 2]
    (by decide)).1.mpr (by decide)

/-- C10: presence is tested with `item !== undefined`, so when the first
(resp. last) element satisfying the predicate is an `undefined` element, the
lookup's `undefined` result is taken for absence and `firstOrDefault`
(resp. `lastOrDefault`) returns the supplied `defaultValue` instead of the
matching element. -/
theorem orDefault_undefined_element (α : Type) (p : Option α → Bool)
    (l : List (Option α)) (d : Option α) :
    (l.find? p = some none → firstOrDefault (some p) d ⟨l⟩ = d) ∧
    (l.reverse.find? p = some none → lastOrDefault (some p) d ⟨l⟩ = d) := by
  constructor
  · intro h1
    simp [firstOrDefault, jsFind, h1]
  · intro h2
    simp [lastOrDefault, jsFind, h2]

/-- C10, witness: on `[some 1, undefined]` with the "is undefined" predicate
the matching element is the `undefined` one, and both lookups return the
supplied default `some 99` instead of it. -/
theorem orDefault_undefined_element_witness :
    firstOrDefault (some (fun x => x.isNone)) (some 99)
      ⟨[some 1, (none : Option ℕ)]⟩ = some 99 ∧
    lastOrDefault (some (fun x => x.isNone)) (some 99)
      ⟨[some 1, (none : Option ℕ)]⟩ = some 99 :=
  ⟨(orDefault_undefined_element ℕ (fun x => x.isNone) [some 1, none]
      (some 99)).1 (by decide),
   (orDefault_undefined_element ℕ (fun x => x.isNone) [some 1, none]
      (some 99)).2 (by decide)⟩

/-- Models the call `q.select(f)` as (returned wrapper, receiver state after
the call): `Array.prototype.map` does not mutate its receiver. -/
def selectCall (f : α → β) (q : Queryable α) : Queryable β × Queryable α :=
  (⟨q.collection.map f⟩, q)

/-- Models the call `q.where(p)`: `Array.prototype.filter` does not mutate
its receiver. -/
def whereCall (p : α → Bool) (q : Queryable α) : Queryable α × Queryable α :=
  (⟨q.collection.filter p⟩, q)

/-- Models the call `q.orderBy(k)`: the spread `[...this.collection]` copies
the backing array and `sort` mutates only that copy, so the receiver's
backing array is untouched. -/
def orderByCall [LinearOrder κ] (k : α → κ) (q : Queryable α) :
    Queryable α × Queryable α :=
  (⟨jsSort (ascComparator k) q.collection⟩, q)

/-- Models the call `q.orderByDescending(k)`: again only the spread copy is
sorted in place. -/
def orderByDescendingCall [LinearOrder κ] (k : α → κ) (q : Queryable α) :
    Queryable α × Queryable α :=
  (⟨jsSort (descComparator k) q.collection⟩, q)

/-- Models the call `q.distinct(k)`: the loop only reads the receiver and
pushes onto the fresh `distinctItems` array. -/
def distinctCall [DecidableEq κ] (k : α → κ) (q : Queryable α) :
    Queryable α × Queryable α :=
  (⟨(q.collection.foldl (distinctStep k) ([], [])).2⟩, q)

/-- Models the call `q.take(c)`: `Array.prototype.slice` does not mutate its
receiver. -/
def takeCall (c : Int) (q : Queryable α) : Queryable α × Queryable α :=
  (⟨jsSlice q.collection 0 c⟩, q)

/-- Models the call `q.skip(c)`: `slice` again leaves the receiver intact. -/
def skipCall (c : Int) (q : Queryable α) : Queryable α × Queryable α :=
  (⟨jsSlice q.collection c (q.collection.length : Int)⟩, q)

/-- C7: every transforming operator leaves the original wrapper's backing
sequence — as observed through `toArray` — unchanged in contents, order and
length, and the wrapper it returns carries exactly the operator's result. -/
theorem operators_preserve_receiver (α β κ : Type) [LinearOrder κ]
    [DecidableEq κ] (f : α → β) (p : α → Bool) (k : α → κ) (c : Int)
    (q : Queryable α) :
    (toArray (selectCall f q).2 = toArray q ∧ (selectCall f q).1 = select f q) ∧
    (toArray (whereCall p q).2 = toArray q ∧ (whereCall p q).1 = where_ p q) ∧
    (toArray (orderByCall k q).2 = toArray q ∧
      (orderByCall k q).1 = orderBy k q) ∧
    (toArray (orderByDescendingCall k q).2 = toArray q ∧
      (orderByDescendingCall k q).1 = orderByDescending k q) ∧
    (toArray (distinctCall k q).2 = toArray q ∧
      (distinctCall k q).1 = distinct k q) ∧
    (toArray (takeCall c q).2 = toArray q ∧ (takeCall c q).1 = take c q) ∧
    (toArray (skipCall c q).2 = toArray q ∧ (skipCall c q).1 = skip c q) :=
  ⟨⟨rfl, rfl⟩, ⟨rfl, rfl⟩, ⟨rfl, rfl⟩, ⟨rfl, rfl⟩, ⟨rfl, rfl⟩, ⟨rfl, rfl⟩,
    ⟨rfl, rfl⟩⟩

end XQuery
